import Mathlib

/-!
Verification of the zeroclaw ingress fabric: shallow embedding of the
wake/sleep engine, thread-mode tracker, allowlists, webhook HMAC
verification, Mattermost mention detection and normalization, URL safety
and UTF-8 truncation, with theorems settling the specification claims.

Rust `HashMap<String, V>` state is modelled as an association list with
`lookupKey` (HashMap::get), `insertKey` (HashMap::insert, replacing in
place) and `removeKey` (HashMap::remove). Keys in reachable states are
unique, and all operations below only depend on the first occurrence of
a key, matching HashMap semantics.
-/

set_option maxHeartbeats 1000000
set_option maxRecDepth 8000

namespace ZeroClaw

/-- Model of `HashMap::get` on an association list. -/
def lookupKey {β : Type} (k : String) : List (String × β) → Option β
  | [] => none
  | (k', v) :: rest => if k' = k then some v else lookupKey k rest

/-- Model of `HashMap::insert`: replaces the value of an existing key in
place, otherwise appends the new binding. -/
def insertKey {β : Type} (k : String) (v : β) : List (String × β) → List (String × β)
  | [] => [(k, v)]
  | (k', v') :: rest => if k' = k then (k, v) :: rest else (k', v') :: insertKey k v rest

/-- Model of `HashMap::remove`. -/
def removeKey {β : Type} (k : String) : List (String × β) → List (String × β)
  | [] => []
  | (k', v') :: rest => if k' = k then rest else (k', v') :: removeKey k rest

theorem lookupKey_insertKey_self {β : Type} (k : String) (v : β) (l : List (String × β)) :
    lookupKey k (insertKey k v l) = some v := by
  induction l with
  | nil => simp [insertKey, lookupKey]
  | cons p rest ih =>
    obtain ⟨k', v'⟩ := p
    by_cases h : k' = k <;> simp [insertKey, lookupKey, h, ih]

theorem lookupKey_eq_none_of_forall_ne {β : Type} (k : String) (l : List (String × β))
    (h : ∀ p ∈ l, p.1 ≠ k) : lookupKey k l = none := by
  induction l with
  | nil => rfl
  | cons p rest ih =>
    obtain ⟨k', v'⟩ := p
    have hk : k' ≠ k := h (k', v') (List.mem_cons_self _ _)
    simp only [lookupKey, if_neg hk]
    exact ih fun q hq => h q (List.mem_cons_of_mem _ hq)

theorem mem_insertKey {β : Type} (k : String) (v : β) (l : List (String × β)) :
    ∀ p ∈ insertKey k v l, p = (k, v) ∨ p ∈ l := by
  induction l with
  | nil => intro p hp; simp [insertKey] at hp; left; exact hp
  | cons q rest ih =>
    intro p hp
    obtain ⟨k', v'⟩ := q
    by_cases h : k' = k
    · simp only [insertKey, if_pos h] at hp
      rcases List.mem_cons.mp hp with h1 | h1
      · left; exact h1
      · right; exact List.mem_cons_of_mem _ h1
    · simp only [insertKey, if_neg h] at hp
      rcases List.mem_cons.mp hp with h1 | h1
      · right; exact h1 ▸ List.mem_cons_self _ _
      · rcases ih p h1 with h2 | h2
        · left; exact h2
        · right; exact List.mem_cons_of_mem _ h2

theorem length_insertKey_of_lookup_none {β : Type} (k : String) (v : β)
    (l : List (String × β)) (h : lookupKey k l = none) :
    (insertKey k v l).length = l.length + 1 := by
  induction l with
  | nil => simp [insertKey]
  | cons q rest ih =>
    obtain ⟨k', v'⟩ := q
    by_cases hk : k' = k
    · simp [lookupKey, hk] at h
    · simp only [lookupKey, if_neg hk] at h
      simp [insertKey, if_neg hk, ih h]

theorem length_insertKey_of_lookup_some {β : Type} (k : String) (v w : β)
    (l : List (String × β)) (h : lookupKey k l = some w) :
    (insertKey k v l).length = l.length := by
  induction l with
  | nil => simp [lookupKey] at h
  | cons q rest ih =>
    obtain ⟨k', v'⟩ := q
    by_cases hk : k' = k
    · simp [insertKey, if_pos hk]
    · simp only [lookupKey, if_neg hk] at h
      simp [insertKey, if_neg hk, ih h]

theorem length_removeKey_le {β : Type} (k : String) (l : List (String × β)) :
    (removeKey k l).length ≤ l.length := by
  induction l with
  | nil => simp [removeKey]
  | cons q rest ih =>
    obtain ⟨k', v'⟩ := q
    by_cases hk : k' = k
    · simp only [removeKey, if_pos hk, List.length_cons]; omega
    · simp only [removeKey, if_neg hk, List.length_cons]; omega

theorem mem_removeKey {β : Type} (k : String) (l : List (String × β)) :
    ∀ p ∈ removeKey k l, p ∈ l := by
  induction l with
  | nil => intro p hp; simp [removeKey] at hp
  | cons q rest ih =>
    intro p hp
    obtain ⟨k', v'⟩ := q
    by_cases hk : k' = k
    · simp only [removeKey, if_pos hk] at hp
      exact List.mem_cons_of_mem _ hp
    · simp only [removeKey, if_neg hk] at hp
      rcases List.mem_cons.mp hp with h1 | h1
      · exact h1 ▸ List.mem_cons_self _ _
      · exact List.mem_cons_of_mem _ (ih p h1)

theorem lookupKey_mem {β : Type} (k : String) (v : β) (l : List (String × β))
    (h : lookupKey k l = some v) : (k, v) ∈ l := by
  induction l with
  | nil => simp [lookupKey] at h
  | cons q rest ih =>
    obtain ⟨k', v'⟩ := q
    by_cases hk : k' = k
    · simp only [lookupKey, if_pos hk, Option.some.injEq] at h
      subst hk; subst h; exact List.mem_cons_self _ _
    · simp only [lookupKey, if_neg hk] at h
      exact List.mem_cons_of_mem _ (ih h)

/-! ## Wake/sleep engine (`src/wake_sleep.rs`)

`Instant` is modelled as an abstract `Nat` timestamp passed in by the
caller (`now`); the engine only stores it. -/

/-- Decision returned by `WakeSleepEngine::on_event`. -/
inductive EventDecision : Type where
  | Forward : EventDecision
  | Wake : EventDecision
  | Discard : EventDecision
deriving DecidableEq, Repr

/-- Per-thread wake state (`WakeState` in `wake_sleep.rs`). -/
inductive WakeState : Type where
  | Awake : Nat → WakeState
  | Sleeping : WakeState
deriving DecidableEq, Repr

/-- `MAX_ENTRIES` in `wake_sleep.rs`: hard cap on tracked threads. -/
def WS_MAX_ENTRIES : Nat := 10000

/-- The wake/sleep engine state (the `HashMap` behind the mutex). -/
structure WakeSleepEngine : Type where
  states : List (String × WakeState)
deriving DecidableEq, Repr

def WakeSleepEngine.new : WakeSleepEngine := ⟨[]⟩

/-- `WakeSleepEngine::on_event`, returning the updated state and decision. -/
def WakeSleepEngine.on_event (e : WakeSleepEngine) (thread_key : String)
    (is_mention : Bool) (now : Nat) : WakeSleepEngine × EventDecision :=
  match lookupKey thread_key e.states with
  | none =>
    if e.states.length ≥ WS_MAX_ENTRIES then
      (e, .Forward)
    else
      (⟨insertKey thread_key (.Awake now) e.states⟩, .Forward)
  | some (.Awake _) =>
    (⟨insertKey thread_key (.Awake now) e.states⟩, .Forward)
  | some .Sleeping =>
    if is_mention then
      (⟨insertKey thread_key (.Awake now) e.states⟩, .Wake)
    else
      (e, .Discard)

/-- `WakeSleepEngine::mark_sleeping`: no-op for untracked keys. -/
def WakeSleepEngine.mark_sleeping (e : WakeSleepEngine) (thread_key : String) :
    WakeSleepEngine :=
  if (lookupKey thread_key e.states).isSome then
    ⟨insertKey thread_key .Sleeping e.states⟩
  else
    e

/-- `WakeSleepEngine::is_awake`. -/
def WakeSleepEngine.is_awake (e : WakeSleepEngine) (thread_key : String) : Bool :=
  match lookupKey thread_key e.states with
  | some (.Awake _) => true
  | _ => false

/-- A wake/sleep state at full capacity: 10,000 distinct single-character
keys, all awake (reachable by 10,000 `on_event` calls on fresh keys). -/
def bigWakeEntries : List (String × WakeState) :=
  (List.range WS_MAX_ENTRIES).map fun i => (String.mk [Char.ofNat i], WakeState.Awake 0)

theorem bigWakeEntries_length : bigWakeEntries.length = WS_MAX_ENTRIES := by
  simp only [bigWakeEntries, List.length_map, List.length_range]

theorem bigWakeEntries_keys_ne_zz : ∀ p ∈ bigWakeEntries, p.1 ≠ "zz" := by
  intro p hp
  simp only [bigWakeEntries, List.mem_map] at hp
  obtain ⟨i, _, rfl⟩ := hp
  intro h
  have hd : ([Char.ofNat i] : List Char) = "zz".data := congrArg String.data h
  simp at hd

theorem bigWakeEntries_lookup_zz : lookupKey "zz" bigWakeEntries = none :=
  lookupKey_eq_none_of_forall_ne _ _ bigWakeEntries_keys_ne_zz

/-- `on_event` on an unknown key with the table at capacity: Forward
without insertion (the warn-and-return branch). -/
theorem on_event_unknown_at_capacity (l : List (String × WakeState)) (k : String)
    (m : Bool) (now : Nat) (h1 : lookupKey k l = none) (h2 : l.length ≥ WS_MAX_ENTRIES) :
    (WakeSleepEngine.mk l).on_event k m now = (WakeSleepEngine.mk l, .Forward) := by
  simp [WakeSleepEngine.on_event, h1, h2]

theorem is_awake_of_lookup_none (l : List (String × WakeState)) (k : String)
    (h : lookupKey k l = none) : (WakeSleepEngine.mk l).is_awake k = false := by
  simp [WakeSleepEngine.is_awake, h]

theorem mark_sleeping_of_lookup_none (l : List (String × WakeState)) (k : String)
    (h : lookupKey k l = none) :
    (WakeSleepEngine.mk l).mark_sleeping k = WakeSleepEngine.mk l := by
  simp [WakeSleepEngine.mark_sleeping, h]

/-- C1 counterexample: with the table at capacity (10,000 tracked keys)
and `"zz"` untracked, `on_event("zz", _)` returns `Forward`, yet
`is_awake("zz")` is false afterwards — refuting the unconditional
invariant "after `on_event(k, _)` returns Forward or Wake, `is_awake(k)`
is true". -/
theorem wake_sleep_forward_without_awake_cex :
    ((WakeSleepEngine.mk bigWakeEntries).on_event "zz" false 0).2 = EventDecision.Forward ∧
    ((WakeSleepEngine.mk bigWakeEntries).on_event "zz" false 0).1.is_awake "zz" = false := by
  have hlen : bigWakeEntries.length ≥ WS_MAX_ENTRIES := by
    rw [bigWakeEntries_length]
  have h := on_event_unknown_at_capacity bigWakeEntries "zz" false 0
    bigWakeEntries_lookup_zz hlen
  rw [h]
  exact ⟨rfl, is_awake_of_lookup_none bigWakeEntries "zz" bigWakeEntries_lookup_zz⟩

/-- C1 (amended): `on_event` follows the wake/sleep rules — unknown key
below capacity: insert Awake, Forward; unknown key at capacity: Forward
without insertion; Awake: refresh `last_activity`, Forward; Sleeping +
mention: Awake, Wake; Sleeping + non-mention: Discard. After `on_event`
returns Forward or Wake, `is_awake(k)` is true provided the table was
not at capacity with `k` untracked; after `mark_sleeping(k)` on a
tracked `k`, `is_awake(k)` is false. -/
theorem wake_sleep_on_event_rules (l : List (String × WakeState)) (k : String)
    (m : Bool) (now : Nat) :
    (lookupKey k l = none → l.length < WS_MAX_ENTRIES →
      (WakeSleepEngine.mk l).on_event k m now =
        (WakeSleepEngine.mk (insertKey k (.Awake now) l), .Forward)) ∧
    (lookupKey k l = none → l.length ≥ WS_MAX_ENTRIES →
      (WakeSleepEngine.mk l).on_event k m now = (WakeSleepEngine.mk l, .Forward)) ∧
    (∀ t, lookupKey k l = some (.Awake t) →
      (WakeSleepEngine.mk l).on_event k m now =
        (WakeSleepEngine.mk (insertKey k (.Awake now) l), .Forward)) ∧
    (lookupKey k l = some .Sleeping → m = true →
      (WakeSleepEngine.mk l).on_event k m now =
        (WakeSleepEngine.mk (insertKey k (.Awake now) l), .Wake)) ∧
    (lookupKey k l = some .Sleeping → m = false →
      (WakeSleepEngine.mk l).on_event k m now = (WakeSleepEngine.mk l, .Discard)) ∧
    (((WakeSleepEngine.mk l).on_event k m now).2 ≠ .Discard →
      (l.length < WS_MAX_ENTRIES ∨ (lookupKey k l).isSome = true) →
      ((WakeSleepEngine.mk l).on_event k m now).1.is_awake k = true) ∧
    ((lookupKey k l).isSome = true →
      ((WakeSleepEngine.mk l).mark_sleeping k).is_awake k = false) := by
  refine ⟨?_, ?_, ?_, ?_, ?_, ?_, ?_⟩
  · intro h1 h2
    simp [WakeSleepEngine.on_event, h1, Nat.not_le.mpr h2]
  · intro h1 h2
    simp [WakeSleepEngine.on_event, h1, h2]
  · intro t h1
    simp [WakeSleepEngine.on_event, h1]
  · intro h1 h2
    subst h2
    simp [WakeSleepEngine.on_event, h1]
  · intro h1 h2
    subst h2
    simp [WakeSleepEngine.on_event, h1]
  · intro hdec hcap
    match hl : lookupKey k l with
    | none =>
      rcases hcap with hlt | hsome
      · simp [WakeSleepEngine.on_event, hl, Nat.not_le.mpr hlt,
          WakeSleepEngine.is_awake, lookupKey_insertKey_self]
      · simp [hl] at hsome
    | some (.Awake t) =>
      simp [WakeSleepEngine.on_event, hl, WakeSleepEngine.is_awake,
        lookupKey_insertKey_self]
    | some .Sleeping =>
      cases m with
      | true =>
        simp [WakeSleepEngine.on_event, hl, WakeSleepEngine.is_awake,
          lookupKey_insertKey_self]
      | false =>
        exfalso
        apply hdec
        simp [WakeSleepEngine.on_event, hl]
  · intro hsome
    rw [Option.isSome_iff_exists] at hsome
    obtain ⟨v, hv⟩ := hsome
    simp [WakeSleepEngine.mark_sleeping, hv, WakeSleepEngine.is_awake,
      lookupKey_insertKey_self]

/-- C1 witness: the amended rules evaluated at concrete states — a fresh
engine, a full-capacity engine, an awake thread, and a sleeping thread. -/
theorem wake_sleep_on_event_rules_witness :
    (WakeSleepEngine.new.on_event "t" false 0 =
      (WakeSleepEngine.mk [("t", WakeState.Awake 0)], .Forward)) ∧
    ((WakeSleepEngine.mk bigWakeEntries).on_event "zz" true 0 =
      (WakeSleepEngine.mk bigWakeEntries, .Forward)) ∧
    ((WakeSleepEngine.mk [("t", WakeState.Awake 5)]).on_event "t" false 7 =
      (WakeSleepEngine.mk [("t", WakeState.Awake 7)], .Forward)) ∧
    ((WakeSleepEngine.mk [("t", WakeState.Sleeping)]).on_event "t" true 3 =
      (WakeSleepEngine.mk [("t", WakeState.Awake 3)], .Wake)) ∧
    ((WakeSleepEngine.mk [("t", WakeState.Sleeping)]).on_event "t" false 3 =
      (WakeSleepEngine.mk [("t", WakeState.Sleeping)], .Discard)) ∧
    ((WakeSleepEngine.new.on_event "t" false 0).1.is_awake "t" = true) ∧
    (((WakeSleepEngine.mk [("t", WakeState.Awake 5)]).mark_sleeping "t").is_awake "t" = false) := by
  have hlen : bigWakeEntries.length ≥ WS_MAX_ENTRIES := by
    rw [bigWakeEntries_length]
  refine ⟨?_, ?_, ?_, ?_, ?_, ?_, ?_⟩
  · exact ((wake_sleep_on_event_rules [] "t" false 0).1 (by decide) (by decide)).trans
      (by decide)
  · exact (wake_sleep_on_event_rules bigWakeEntries "zz" true 0).2.1
      bigWakeEntries_lookup_zz hlen
  · exact (((wake_sleep_on_event_rules [("t", WakeState.Awake 5)] "t" false 7).2.2.1) 5
      (by decide)).trans (by decide)
  · exact (((wake_sleep_on_event_rules [("t", WakeState.Sleeping)] "t" true 3).2.2.2.1)
      (by decide) rfl).trans (by decide)
  · exact (wake_sleep_on_event_rules [("t", WakeState.Sleeping)] "t" false 3).2.2.2.2.1
      (by decide) rfl
  · exact (wake_sleep_on_event_rules [] "t" false 0).2.2.2.2.2.1
      (by decide) (Or.inl (by decide))
  · exact (wake_sleep_on_event_rules [("t", WakeState.Awake 5)] "t" false 0).2.2.2.2.2.2
      (by decide)

/-- C2: capacity-drop safety — with the table at capacity, `on_event` on
an unknown key returns Forward without inserting it; `mark_sleeping` on
an untracked key leaves the state unchanged; and a subsequent
non-mention `on_event` on that key still returns Forward. -/
theorem wake_sleep_capacity_drop (l : List (String × WakeState)) (k : String)
    (m : Bool) (now : Nat) (h : lookupKey k l = none) :
    (l.length ≥ WS_MAX_ENTRIES →
      (WakeSleepEngine.mk l).on_event k m now = (WakeSleepEngine.mk l, .Forward)) ∧
    (WakeSleepEngine.mk l).mark_sleeping k = WakeSleepEngine.mk l ∧
    (((WakeSleepEngine.mk l).mark_sleeping k).on_event k false now).2 = .Forward := by
  refine ⟨?_, ?_, ?_⟩
  · intro h2
    simp [WakeSleepEngine.on_event, h, h2]
  · simp [WakeSleepEngine.mark_sleeping, h]
  · rw [mark_sleeping_of_lookup_none l k h]
    by_cases h2 : l.length ≥ WS_MAX_ENTRIES
    · simp [WakeSleepEngine.on_event, h, h2]
    · simp [WakeSleepEngine.on_event, h, h2]

/-- C2 witness: the capacity-drop scenario evaluated at the concrete
full-capacity state with the untracked key `"zz"`. -/
theorem wake_sleep_capacity_drop_witness :
    ((WakeSleepEngine.mk bigWakeEntries).on_event "zz" false 0 =
      (WakeSleepEngine.mk bigWakeEntries, .Forward)) ∧
    (WakeSleepEngine.mk bigWakeEntries).mark_sleeping "zz" = WakeSleepEngine.mk bigWakeEntries ∧
    (((WakeSleepEngine.mk bigWakeEntries).mark_sleeping "zz").on_event "zz" false 0).2 = .Forward := by
  have h := wake_sleep_capacity_drop bigWakeEntries "zz" false 0 bigWakeEntries_lookup_zz
  exact ⟨h.1 (by rw [bigWakeEntries_length]), h.2.1, h.2.2⟩

/-! ## Per-thread mode tracker (`src/modes/thread_state.rs`) -/

/-- `MAX_ENTRIES` in `modes/thread_state.rs`. -/
def TM_MAX_ENTRIES : Nat := 10000

/-- `ThreadModeState`: maps `thread_ts` to the list of active mode names. -/
structure ThreadModeState : Type where
  active_modes : List (String × List String)
deriving DecidableEq, Repr

def ThreadModeState.new : ThreadModeState := ⟨[]⟩

/-- `ThreadModeState::get_modes`. -/
def ThreadModeState.get_modes (s : ThreadModeState) (thread_ts : String) : List String :=
  (lookupKey thread_ts s.active_modes).getD []

/-- `ThreadModeState::add_mode`: no-op when the mode is already present;
capacity ceiling applies only to new threads. -/
def ThreadModeState.add_mode (s : ThreadModeState) (thread_ts mode_name : String) :
    ThreadModeState :=
  match lookupKey thread_ts s.active_modes with
  | some modes =>
    if mode_name ∈ modes then s
    else ⟨insertKey thread_ts (modes ++ [mode_name]) s.active_modes⟩
  | none =>
    if s.active_modes.length ≥ TM_MAX_ENTRIES then s
    else ⟨insertKey thread_ts [mode_name] s.active_modes⟩

/-- `ThreadModeState::clear_mode`. -/
def ThreadModeState.clear_mode (s : ThreadModeState) (thread_ts : String) :
    ThreadModeState :=
  ⟨removeKey thread_ts s.active_modes⟩

/-- The C10 invariant: every thread's mode list is duplicate-free and the
map holds at most 10,000 threads. -/
def ThreadModeInv (l : List (String × List String)) : Prop :=
  (∀ p ∈ l, p.2.Nodup) ∧ l.length ≤ TM_MAX_ENTRIES

/-- A mode map at full capacity: 10,000 distinct single-character keys. -/
def bigModeEntries : List (String × List String) :=
  (List.range TM_MAX_ENTRIES).map fun i => (String.mk [Char.ofNat i], ["pm"])

theorem bigModeEntries_length : bigModeEntries.length = TM_MAX_ENTRIES := by
  simp only [bigModeEntries, List.length_map, List.length_range]

theorem bigModeEntries_keys_ne_zz : ∀ p ∈ bigModeEntries, p.1 ≠ "zz" := by
  intro p hp
  simp only [bigModeEntries, List.mem_map] at hp
  obtain ⟨i, _, rfl⟩ := hp
  intro h
  have hd : ([Char.ofNat i] : List Char) = "zz".data := congrArg String.data h
  simp at hd

theorem bigModeEntries_lookup_zz : lookupKey "zz" bigModeEntries = none :=
  lookupKey_eq_none_of_forall_ne _ _ bigModeEntries_keys_ne_zz

theorem bigModeEntries_inv : ThreadModeInv bigModeEntries := by
  constructor
  · intro p hp
    simp only [bigModeEntries, List.mem_map] at hp
    obtain ⟨i, _, rfl⟩ := hp
    simp
  · rw [bigModeEntries_length]

/-- C10: `ThreadModeState` keeps every thread's mode list duplicate-free
and the map at ≤ 10,000 threads across `add_mode`/`get_modes`/`clear_mode`;
`add_mode` of a present mode is a no-op; at capacity, `add_mode` on an
untracked thread is a no-op while a tracked thread still accepts new
modes; `get_modes` on an untracked thread is empty. -/
theorem thread_mode_state_spec (l : List (String × List String)) (k mode : String)
    (hinv : ThreadModeInv l) :
    ThreadModeInv ((ThreadModeState.mk l).add_mode k mode).active_modes ∧
    ThreadModeInv ((ThreadModeState.mk l).clear_mode k).active_modes ∧
    ThreadModeInv ThreadModeState.new.active_modes ∧
    (lookupKey k l = none → (ThreadModeState.mk l).get_modes k = []) ∧
    (l.length ≥ TM_MAX_ENTRIES → lookupKey k l = none →
      (ThreadModeState.mk l).add_mode k mode = ThreadModeState.mk l) ∧
    (∀ modes, lookupKey k l = some modes → mode ∈ modes →
      (ThreadModeState.mk l).add_mode k mode = ThreadModeState.mk l) ∧
    (∀ modes, lookupKey k l = some modes → mode ∉ modes →
      ((ThreadModeState.mk l).add_mode k mode).get_modes k = modes ++ [mode]) := by
  obtain ⟨hnodup, hlen⟩ := hinv
  refine ⟨?_, ?_, ?_, ?_, ?_, ?_, ?_⟩
  · match hl : lookupKey k l with
    | some modes =>
      by_cases hm : mode ∈ modes
      · simp only [ThreadModeState.add_mode, hl, if_pos hm]
        exact ⟨hnodup, hlen⟩
      · simp only [ThreadModeState.add_mode, hl, if_neg hm]
        constructor
        · intro p hp
          rcases mem_insertKey k (modes ++ [mode]) l p hp with h1 | h1
          · subst h1
            have hmod : (k, modes) ∈ l := lookupKey_mem k modes l hl
            have : modes.Nodup := hnodup (k, modes) hmod
            simpa [List.nodup_append] using ⟨this, hm⟩
          · exact hnodup p h1
        · rw [length_insertKey_of_lookup_some k _ modes l hl]
          exact hlen
    | none =>
      by_cases hc : l.length ≥ TM_MAX_ENTRIES
      · simp only [ThreadModeState.add_mode, hl, if_pos hc]
        exact ⟨hnodup, hlen⟩
      · simp only [ThreadModeState.add_mode, hl, if_neg hc]
        constructor
        · intro p hp
          rcases mem_insertKey k [mode] l p hp with h1 | h1
          · subst h1; simp
          · exact hnodup p h1
        · rw [length_insertKey_of_lookup_none k _ l hl]
          omega
  · constructor
    · intro p hp
      exact hnodup p (mem_removeKey k l p hp)
    · exact le_trans (length_removeKey_le k l) hlen
  · exact ⟨by intro p hp; simp [ThreadModeState.new] at hp,
      by simp [ThreadModeState.new, TM_MAX_ENTRIES]⟩
  · intro h
    simp [ThreadModeState.get_modes, h]
  · intro hc h
    simp [ThreadModeState.add_mode, h, hc]
  · intro modes h hm
    simp [ThreadModeState.add_mode, h, hm]
  · intro modes h hm
    simp [ThreadModeState.add_mode, h, hm, ThreadModeState.get_modes,
      lookupKey_insertKey_self]

/-- C10 witness: the tracker evaluated at an empty map, a one-thread map
(duplicate add, additive add) and the concrete full-capacity map. -/
theorem thread_mode_state_spec_witness :
    ((ThreadModeState.mk []).get_modes "t" = []) ∧
    ((ThreadModeState.mk [("t", ["pm"])]).add_mode "t" "pm" =
      ThreadModeState.mk [("t", ["pm"])]) ∧
    (((ThreadModeState.mk [("t", ["pm"])]).add_mode "t" "devops").get_modes "t" =
      ["pm", "devops"]) ∧
    ((ThreadModeState.mk bigModeEntries).add_mode "zz" "pm" =
      ThreadModeState.mk bigModeEntries) ∧
    ThreadModeInv ((ThreadModeState.mk [("t", ["pm"])]).add_mode "t" "devops").active_modes := by
  have hsmall : ThreadModeInv [("t", ["pm"])] := by
    constructor
    · intro p hp
      simp at hp
      subst hp; simp
    · simp [TM_MAX_ENTRIES]
  refine ⟨?_, ?_, ?_, ?_, ?_⟩
  · exact (thread_mode_state_spec [] "t" "x" (by exact ⟨by simp, by simp [TM_MAX_ENTRIES]⟩)).2.2.2.1
      (by decide)
  · exact (thread_mode_state_spec [("t", ["pm"])] "t" "pm" hsmall).2.2.2.2.2.1
      ["pm"] (by decide) (by decide)
  · exact ((thread_mode_state_spec [("t", ["pm"])] "t" "devops" hsmall).2.2.2.2.2.2
      ["pm"] (by decide) (by decide)).trans (by decide)
  · exact (thread_mode_state_spec bigModeEntries "zz" "pm" bigModeEntries_inv).2.2.2.2.1
      (by rw [bigModeEntries_length]) bigModeEntries_lookup_zz
  · exact (thread_mode_state_spec [("t", ["pm"])] "t" "devops" hsmall).1

/-! ## Allowlists (`channels/slack.rs` line 75, `channels/mattermost.rs` line 138)

Both adapters implement the same check:
`self.allowed_users.iter().any(|u| u == "*" || u == user_id)`. -/

def SlackChannel.is_user_allowed (allowed_users : List String) (user_id : String) : Bool :=
  allowed_users.any fun u => u == "*" || u == user_id

def MattermostChannel.is_user_allowed (allowed_users : List String) (user_id : String) : Bool :=
  allowed_users.any fun u => u == "*" || u == user_id

/-- C3: `is_user_allowed(u)` is true exactly when the allowlist contains
`"*"` or contains `u` exactly; the empty allowlist denies everyone; a
substring relationship never authorizes; Slack and Mattermost agree. -/
theorem allowlist_strictness (L : List String) (u : String) :
    (SlackChannel.is_user_allowed L u = true ↔ ("*" ∈ L ∨ u ∈ L)) ∧
    (MattermostChannel.is_user_allowed L u = SlackChannel.is_user_allowed L u) ∧
    (SlackChannel.is_user_allowed [] u = false) ∧
    (SlackChannel.is_user_allowed ["U11"] "U111" = false) ∧
    (MattermostChannel.is_user_allowed ["U11"] "U111" = false) := by
  refine ⟨?_, rfl, rfl, by decide, by decide⟩
  simp only [SlackChannel.is_user_allowed, List.any_eq_true, Bool.or_eq_true, beq_iff_eq]
  constructor
  · rintro ⟨x, hx, rfl | rfl⟩
    · exact Or.inl hx
    · exact Or.inr hx
  · rintro (h | h)
    · exact ⟨"*", h, Or.inl rfl⟩
    · exact ⟨u, h, Or.inr rfl⟩

/-- C3 witness: concrete allowlist decisions through the characterization. -/
theorem allowlist_strictness_witness :
    SlackChannel.is_user_allowed ["*"] "anyone" = true ∧
    SlackChannel.is_user_allowed ["U1", "U2"] "U2" = true ∧
    MattermostChannel.is_user_allowed ["U11"] "U111" = false := by
  refine ⟨?_, ?_, ?_⟩
  · exact (allowlist_strictness ["*"] "anyone").1.mpr (Or.inl (by decide))
  · exact (allowlist_strictness ["U1", "U2"] "U2").1.mpr (Or.inr (by decide))
  · exact (allowlist_strictness ["U11"] "U111").2.2.2.2

/-! ## UTF-8 byte accounting

Rust `str` is a UTF-8 byte sequence; we model text as `List Char` and
byte positions/lengths explicitly via `Char.utf8Size`. `suffixAtByte t i`
is the suffix of `t` starting at byte offset `i` when `i` is a char
boundary, `none` otherwise — this mirrors `str::is_char_boundary` and
byte slicing `&s[i..]`, which are only defined on boundaries. -/

def utf8Len : List Char → Nat
  | [] => 0
  | c :: rest => c.utf8Size + utf8Len rest

theorem utf8Len_nil : utf8Len [] = 0 := rfl

theorem utf8Len_cons (c : Char) (rest : List Char) :
    utf8Len (c :: rest) = c.utf8Size + utf8Len rest := rfl

theorem utf8Len_append (a b : List Char) :
    utf8Len (a ++ b) = utf8Len a + utf8Len b := by
  induction a with
  | nil => simp [utf8Len]
  | cons c rest ih => simp [utf8Len_cons, ih]; omega

def suffixAtByte : List Char → Nat → Option (List Char)
  | t, 0 => some t
  | [], _ + 1 => none
  | c :: rest, i + 1 =>
    if c.utf8Size ≤ i + 1 then suffixAtByte rest (i + 1 - c.utf8Size) else none

theorem suffixAtByte_zero (t : List Char) : suffixAtByte t 0 = some t := by
  cases t <;> rfl

theorem suffixAtByte_cons_pos (c : Char) (rest : List Char) (i : Nat) (h : 0 < i) :
    suffixAtByte (c :: rest) i =
      if c.utf8Size ≤ i then suffixAtByte rest (i - c.utf8Size) else none := by
  cases i with
  | zero => omega
  | succ k => rfl

theorem suffixAtByte_nil_pos (i : Nat) (h : 0 < i) : suffixAtByte [] i = none := by
  cases i with
  | zero => omega
  | succ k => rfl

/-- Byte offsets shift through a suffix: if `t` sits at byte `pos` of
`text`, the suffix of `text` at `pos + d` is the suffix of `t` at `d`. -/
theorem suffixAtByte_add (text : List Char) :
    ∀ (pos d : Nat) (t : List Char), suffixAtByte text pos = some t →
      suffixAtByte text (pos + d) = suffixAtByte t d := by
  induction text with
  | nil =>
    intro pos d t h
    cases pos with
    | zero =>
      rw [suffixAtByte_zero] at h
      cases h
      simp
    | succ k => simp [suffixAtByte] at h
  | cons c rest ih =>
    intro pos d t h
    cases pos with
    | zero =>
      rw [suffixAtByte_zero] at h
      cases h
      simp
    | succ k =>
      rw [suffixAtByte_cons_pos c rest (k + 1) (Nat.succ_pos k)] at h
      by_cases hs : c.utf8Size ≤ k + 1
      · rw [if_pos hs] at h
        rw [suffixAtByte_cons_pos c rest (k + 1 + d) (by omega), if_pos (by omega)]
        have heq : k + 1 + d - c.utf8Size = (k + 1 - c.utf8Size) + d := by omega
        rw [heq]
        exact ih (k + 1 - c.utf8Size) d t h
      · rw [if_neg hs] at h
        cases h

/-- The suffix at the byte length of a consumed char prefix. -/
theorem suffixAtByte_utf8Len_take (t : List Char) :
    ∀ n : Nat, n ≤ t.length → suffixAtByte t (utf8Len (t.take n)) = some (t.drop n) := by
  induction t with
  | nil =>
    intro n hn
    simp only [List.length_nil, Nat.le_zero] at hn
    subst hn
    simp [suffixAtByte_zero, utf8Len]
  | cons c rest ih =>
    intro n hn
    cases n with
    | zero => simp [suffixAtByte_zero, utf8Len]
    | succ m =>
      have hsize := Char.utf8Size_pos c
      rw [List.take_succ_cons, utf8Len_cons,
        suffixAtByte_cons_pos c rest _ (by omega), if_pos (by omega)]
      have heq : c.utf8Size + utf8Len (rest.take m) - c.utf8Size = utf8Len (rest.take m) := by
        omega
      rw [heq, List.drop_succ_cons]
      exact ih m (by simpa using hn)

theorem suffixAtByte_utf8Len_self (t : List Char) :
    suffixAtByte t (utf8Len t) = some [] := by
  have h := suffixAtByte_utf8Len_take t t.length (le_refl _)
  simpa using h

/-- Any boundary strictly beyond `pos` skips the whole char at `pos`. -/
theorem suffixAtByte_isSome_gt (text : List Char) (pos i : Nat) (c : Char)
    (rest : List Char) (h : suffixAtByte text pos = some (c :: rest))
    (hi : (suffixAtByte text i).isSome = true) (hlt : pos < i) :
    pos + c.utf8Size ≤ i := by
  have hd : suffixAtByte text (pos + (i - pos)) = suffixAtByte (c :: rest) (i - pos) :=
    suffixAtByte_add text pos (i - pos) (c :: rest) h
  rw [show pos + (i - pos) = i by omega] at hd
  rw [hd] at hi
  rw [suffixAtByte_cons_pos c rest (i - pos) (by omega)] at hi
  by_cases hs : c.utf8Size ≤ i - pos
  · omega
  · rw [if_neg hs] at hi
    simp at hi

def takeBytes : List Char → Nat → List Char
  | _, 0 => []
  | [], _ + 1 => []
  | c :: rest, i + 1 => c :: takeBytes rest (i + 1 - c.utf8Size)

theorem takeBytes_zero (t : List Char) : takeBytes t 0 = [] := by
  cases t <;> rfl

theorem takeBytes_cons_pos (c : Char) (rest : List Char) (i : Nat) (h : 0 < i) :
    takeBytes (c :: rest) i = c :: takeBytes rest (i - c.utf8Size) := by
  cases i with
  | zero => omega
  | succ k => rfl

/-- On a char boundary `b`, `takeBytes` is the byte-exact prefix: it
recombines with the suffix and measures exactly `b` bytes. -/
theorem takeBytes_boundary (t : List Char) :
    ∀ (b : Nat) (suf : List Char), suffixAtByte t b = some suf →
      takeBytes t b ++ suf = t ∧ utf8Len (takeBytes t b) = b := by
  induction t with
  | nil =>
    intro b suf h
    cases b with
    | zero =>
      rw [suffixAtByte_zero] at h
      cases h
      exact ⟨rfl, rfl⟩
    | succ k => simp [suffixAtByte] at h
  | cons c rest ih =>
    intro b suf h
    cases b with
    | zero =>
      rw [suffixAtByte_zero] at h
      cases h
      exact ⟨rfl, rfl⟩
    | succ k =>
      rw [suffixAtByte_cons_pos c rest (k + 1) (Nat.succ_pos k)] at h
      by_cases hs : c.utf8Size ≤ k + 1
      · rw [if_pos hs] at h
        obtain ⟨h1, h2⟩ := ih (k + 1 - c.utf8Size) suf h
        rw [takeBytes_cons_pos c rest (k + 1) (Nat.succ_pos k)]
        constructor
        · simpa using h1
        · rw [utf8Len_cons, h2]
          omega
      · rw [if_neg hs] at h
        cases h

/-- Model of `str::is_char_boundary` for valid UTF-8 text. -/
def isCharBoundary (t : List Char) (i : Nat) : Bool :=
  (suffixAtByte t i).isSome

/-- The backward walk `while !s.is_char_boundary(end) { end -= 1 }` in
`truncate_bytes` (`alert_forwarder.rs`). -/
def floorCharBoundary (t : List Char) : Nat → Nat
  | 0 => 0
  | e + 1 => if isCharBoundary t (e + 1) then e + 1 else floorCharBoundary t e

theorem floorCharBoundary_le (t : List Char) (e : Nat) : floorCharBoundary t e ≤ e := by
  induction e with
  | zero => simp [floorCharBoundary]
  | succ k ih =>
    simp only [floorCharBoundary]
    split
    · exact le_refl _
    · omega

theorem isCharBoundary_floorCharBoundary (t : List Char) (e : Nat) :
    isCharBoundary t (floorCharBoundary t e) = true := by
  induction e with
  | zero => simp [floorCharBoundary, isCharBoundary, suffixAtByte_zero]
  | succ k ih =>
    simp only [floorCharBoundary]
    split
    · assumption
    · exact ih

/-! ## URL safety (`src/alert_forwarder.rs`, `safe_http_url`) -/

/-- Rust `char::is_control`: the Unicode `Cc` category,
U+0000–U+001F and U+007F–U+009F. -/
def isRustControl (c : Char) : Bool :=
  c.toNat < 0x20 || (0x7F ≤ c.toNat && c.toNat ≤ 0x9F)

/-- `safe_http_url` from `alert_forwarder.rs`. -/
def safe_http_url (url : String) : Option String :=
  if url.data.any isRustControl then none
  else if List.isPrefixOf "https://".data url.data
      || List.isPrefixOf "http://".data url.data then
    some url
  else if !url.data.contains ':' then some ("https://" ++ url)
  else none

/-- C8: `safe_http_url(x)` is `Some` iff `x` has no control character and
either starts with `https://` or `http://` (returned unchanged) or has no
`':'` at all (then `https://` is prepended); other schemes and strings
with control characters yield `None`. -/
theorem safe_http_url_spec (x : String) :
    ((safe_http_url x).isSome = true ↔
      ((∀ c ∈ x.data, isRustControl c = false) ∧
        ("https://".data <+: x.data ∨ "http://".data <+: x.data ∨ ':' ∉ x.data))) ∧
    ((∀ c ∈ x.data, isRustControl c = false) →
      ("https://".data <+: x.data ∨ "http://".data <+: x.data) →
      safe_http_url x = some x) ∧
    ((∀ c ∈ x.data, isRustControl c = false) → ':' ∉ x.data →
      safe_http_url x = some ("https://" ++ x)) ∧
    ((∃ c ∈ x.data, isRustControl c = true) → safe_http_url x = none) ∧
    safe_http_url "javascript:alert(1)" = none ∧
    safe_http_url "ftp://example.com" = none := by
  have hpre_colon : ∀ pre : List Char, ':' ∈ pre → pre <+: x.data → ':' ∈ x.data :=
    fun pre hc hp => hp.subset hc
  have hall_of : ¬ x.data.any isRustControl = true → ∀ c ∈ x.data, isRustControl c = false := by
    intro hctl c hc
    by_contra hcc
    rw [Bool.not_eq_false] at hcc
    exact hctl (List.any_eq_true.mpr ⟨c, hc, hcc⟩)
  have hctl_of : (∀ c ∈ x.data, isRustControl c = false) →
      x.data.any isRustControl = false := by
    intro hall
    rw [List.any_eq_false]
    intro c hc
    simp [hall c hc]
  refine ⟨?_, ?_, ?_, ?_, by decide, by decide⟩
  · by_cases hctl : x.data.any isRustControl = true
    · simp only [safe_http_url, hctl, if_true]
      rw [List.any_eq_true] at hctl
      obtain ⟨c, hc, hcc⟩ := hctl
      simp only [Option.isSome_none, Bool.false_eq_true, false_iff]
      rintro ⟨hall, -⟩
      rw [hall c hc] at hcc
      cases hcc
    · have hall : ∀ c ∈ x.data, isRustControl c = false := hall_of hctl
      have hctl' : x.data.any isRustControl = false := hctl_of hall
      simp only [safe_http_url, hctl', Bool.false_eq_true, if_false]
      by_cases hp : (List.isPrefixOf "https://".data x.data
          || List.isPrefixOf "http://".data x.data) = true
      · simp only [hp, if_true, Option.isSome_some, true_iff]
        refine ⟨hall, ?_⟩
        rw [Bool.or_eq_true] at hp
        rcases hp with h | h
        · exact Or.inl (List.isPrefixOf_iff_prefix.mp h)
        · exact Or.inr (Or.inl (List.isPrefixOf_iff_prefix.mp h))
      · rw [Bool.not_eq_true] at hp
        simp only [hp, Bool.false_eq_true, if_false]
        rw [Bool.or_eq_false_iff] at hp
        have hp1 : ¬ ("https://".data <+: x.data) := fun h => by
          have hb := List.isPrefixOf_iff_prefix.mpr h
          rw [hp.1] at hb
          cases hb
        have hp2 : ¬ ("http://".data <+: x.data) := fun h => by
          have hb := List.isPrefixOf_iff_prefix.mpr h
          rw [hp.2] at hb
          cases hb
        by_cases hcol : ':' ∈ x.data
        · simp [hcol, hall, hp1, hp2]
        · simp only [hcol, List.elem_eq_mem, decide_not, Bool.not_eq_true,
            decide_eq_false_iff_not, not_false_eq_true, if_true, if_false]
          simp [hcol, hp1, hp2]
          exact hall
  · intro hall hpre
    have hctl : x.data.any isRustControl = false := hctl_of hall
    have hp : (List.isPrefixOf "https://".data x.data
        || List.isPrefixOf "http://".data x.data) = true := by
      rw [Bool.or_eq_true]
      rcases hpre with h | h
      · exact Or.inl (List.isPrefixOf_iff_prefix.mpr h)
      · exact Or.inr (List.isPrefixOf_iff_prefix.mpr h)
    simp [safe_http_url, hctl, hp]
  · intro hall hcol
    have hctl : x.data.any isRustControl = false := hctl_of hall
    have hp1 : List.isPrefixOf "https://".data x.data = false := by
      by_contra h
      rw [Bool.not_eq_false] at h
      exact hcol (hpre_colon _ (by decide) (List.isPrefixOf_iff_prefix.mp h))
    have hp2 : List.isPrefixOf "http://".data x.data = false := by
      by_contra h
      rw [Bool.not_eq_false] at h
      exact hcol (hpre_colon _ (by decide) (List.isPrefixOf_iff_prefix.mp h))
    simp [safe_http_url, hctl, hp1, hp2, hcol]
  · rintro ⟨c, hc, hcc⟩
    have hctl : x.data.any isRustControl = true :=
      List.any_eq_true.mpr ⟨c, hc, by simp [hcc]⟩
    simp [safe_http_url, hctl]

/-- C8 witness: concrete URL decisions through the characterization. -/
theorem safe_http_url_spec_witness :
    safe_http_url "https://a.io/x" = some "https://a.io/x" ∧
    safe_http_url "example.com" = some ("https://" ++ "example.com") ∧
    safe_http_url "evil\nhost" = none := by
  refine ⟨?_, ?_, ?_⟩
  · exact (safe_http_url_spec "https://a.io/x").2.1 (by decide) (Or.inl (by decide))
  · exact (safe_http_url_spec "example.com").2.2.1 (by decide) (by decide)
  · exact (safe_http_url_spec "evil\nhost").2.2.2.1 ⟨'\n', by decide, by decide⟩

/-! ## UTF-8 truncation (`src/alert_forwarder.rs`, `truncate_bytes`) -/

/-- `truncate_bytes` from `alert_forwarder.rs`: `s.len()` is the UTF-8
byte length, the backward walk finds the nearest char boundary at or
below `max_bytes`, and `&s[..end]` is the byte-exact prefix. -/
def truncate_bytes (s : String) (max_bytes : Nat) : String :=
  if utf8Len s.data ≤ max_bytes then s
  else String.mk (takeBytes s.data (floorCharBoundary s.data max_bytes))

/-- C9: `truncate_bytes(s, n)` always returns a char-boundary prefix of
`s` of byte length ≤ n (the walk terminates on a boundary ≤ n, so the
slice is well formed), and returns `s` unchanged when it already fits. -/
theorem truncate_bytes_spec (s : String) (n : Nat) :
    (∃ t, (truncate_bytes s n).data ++ t = s.data) ∧
    utf8Len (truncate_bytes s n).data ≤ n ∧
    isCharBoundary s.data (utf8Len (truncate_bytes s n).data) = true ∧
    (utf8Len s.data ≤ n → truncate_bytes s n = s) ∧
    floorCharBoundary s.data n ≤ n ∧
    isCharBoundary s.data (floorCharBoundary s.data n) = true := by
  by_cases h : utf8Len s.data ≤ n
  · have ht : truncate_bytes s n = s := by rw [truncate_bytes, if_pos h]
    rw [ht]
    refine ⟨⟨[], List.append_nil _⟩, h, ?_, fun _ => rfl,
      floorCharBoundary_le s.data n, isCharBoundary_floorCharBoundary s.data n⟩
    simp [isCharBoundary, suffixAtByte_utf8Len_self]
  · simp only [truncate_bytes, if_neg h]
    have hb : isCharBoundary s.data (floorCharBoundary s.data n) = true :=
      isCharBoundary_floorCharBoundary s.data n
    have hle : floorCharBoundary s.data n ≤ n := floorCharBoundary_le s.data n
    rw [isCharBoundary] at hb
    rw [Option.isSome_iff_exists] at hb
    obtain ⟨suf, hsuf⟩ := hb
    obtain ⟨happ, hlen⟩ := takeBytes_boundary s.data (floorCharBoundary s.data n) suf hsuf
    refine ⟨⟨suf, happ⟩, ?_, ?_, fun hc => absurd hc h, hle,
      isCharBoundary_floorCharBoundary s.data n⟩
    · rw [hlen]
      exact hle
    · rw [hlen, isCharBoundary, hsuf]
      rfl

/-- C9 witness: truncating `"aé"` (3 bytes) to 2 bytes lands on the char
boundary after `"a"`; a fitting string is returned unchanged. -/
theorem truncate_bytes_spec_witness :
    utf8Len (truncate_bytes "aé" 2).data ≤ 2 ∧
    isCharBoundary "aé".data (utf8Len (truncate_bytes "aé" 2).data) = true ∧
    truncate_bytes "aé" 3 = "aé" := by
  refine ⟨(truncate_bytes_spec "aé" 2).2.1, (truncate_bytes_spec "aé" 2).2.2.1,
    (truncate_bytes_spec "aé" 3).2.2.2.1 (by decide)⟩

/-! ## Webhook HMAC verification (`src/webhook.rs`)

The HMAC-SHA256 core lives in external crates (`hmac`, `sha2`, `hex`);
`verify_hmac` is parameterized over `computeHmac`, the function
`compute_hmac` delegates to, constrained only where the claim needs it
(its output is a lowercase-hex, hence ASCII, string). -/

/-- UTF-8 encoding of one scalar value (`str::as_bytes` exposes the
UTF-8 bytes of a Rust string). -/
def charUtf8Bytes (c : Char) : List Nat :=
  if c.toNat < 0x80 then [c.toNat]
  else if c.toNat < 0x800 then
    [0xC0 + c.toNat / 0x40, 0x80 + c.toNat % 0x40]
  else if c.toNat < 0x10000 then
    [0xE0 + c.toNat / 0x1000, 0x80 + c.toNat / 0x40 % 0x40, 0x80 + c.toNat % 0x40]
  else
    [0xF0 + c.toNat / 0x40000, 0x80 + c.toNat / 0x1000 % 0x40,
      0x80 + c.toNat / 0x40 % 0x40, 0x80 + c.toNat % 0x40]

/-- `str::as_bytes` as a list of byte values. -/
def strBytes (s : String) : List Nat := s.data.flatMap charUtf8Bytes

/-- `constant_time_eq` from `webhook.rs`: a length check, then a fold of
`acc | (x ^ y)` over the zipped bytes, compared with 0. -/
def constant_time_eq (a b : List Nat) : Bool :=
  if a.length ≠ b.length then false
  else ((a.zip b).foldl (fun acc p => acc ||| (p.1 ^^^ p.2)) 0) == 0

/-- `header.trim_start_matches("sha256=")`: Rust repeatedly strips every
leading occurrence of the pattern. -/
def stripSha256All : List Char → List Char
  | 's' :: 'h' :: 'a' :: '2' :: '5' :: '6' :: '=' :: rest => stripSha256All rest
  | l => l

/-- Modelled from the spec claim's words "with an optional `sha256=`
prefix stripped": strips at most one prefix occurrence (to be compared
against the source's repeated stripping). -/
def stripSha256Once (l : List Char) : List Char :=
  if List.isPrefixOf "sha256=".data l then l.drop 7 else l

/-- `verify_hmac` from `webhook.rs`. -/
def verify_hmac (computeHmac : List Nat → String → String) (body : List Nat)
    (header_value : Option String) (secret : Option String) : Except String Unit :=
  match secret with
  | none => Except.ok ()
  | some secret =>
    match header_value with
    | none => Except.error "webhook: signature header missing"
    | some hv =>
      let provided := String.mk (stripSha256All hv.data)
      let expected := computeHmac body secret
      if constant_time_eq (strBytes expected) (strBytes provided) then Except.ok ()
      else Except.error "webhook: signature mismatch"

theorem nat_or_eq_zero_iff (a b : Nat) : a ||| b = 0 ↔ a = 0 ∧ b = 0 := by
  constructor
  · intro h
    have ha : a = 0 := Nat.zero_of_testBit_eq_false fun i => by
      have := congrArg (fun n => n.testBit i) h
      simp only [Nat.testBit_or, Nat.zero_testBit, Bool.or_eq_false_iff] at this
      exact this.1
    have hb : b = 0 := Nat.zero_of_testBit_eq_false fun i => by
      have := congrArg (fun n => n.testBit i) h
      simp only [Nat.testBit_or, Nat.zero_testBit, Bool.or_eq_false_iff] at this
      exact this.2
    exact ⟨ha, hb⟩
  · rintro ⟨rfl, rfl⟩
    rfl

theorem foldl_or_xor_eq_zero (l : List (Nat × Nat)) :
    ∀ acc : Nat, (l.foldl (fun acc p => acc ||| (p.1 ^^^ p.2)) acc = 0) ↔
      (acc = 0 ∧ ∀ p ∈ l, p.1 = p.2) := by
  induction l with
  | nil => simp
  | cons q rest ih =>
    intro acc
    rw [List.foldl_cons, ih, nat_or_eq_zero_iff, Nat.xor_eq_zero]
    constructor
    · rintro ⟨⟨h1, h2⟩, h3⟩
      refine ⟨h1, fun p hp => ?_⟩
      rcases List.mem_cons.mp hp with rfl | hp
      · exact h2
      · exact h3 p hp
    · rintro ⟨h1, h2⟩
      exact ⟨⟨h1, h2 q (List.mem_cons_self _ _)⟩,
        fun p hp => h2 p (List.mem_cons_of_mem _ hp)⟩

theorem eq_of_zip_fst_eq_snd : ∀ (a b : List Nat), a.length = b.length →
    (∀ p ∈ a.zip b, p.1 = p.2) → a = b := by
  intro a
  induction a with
  | nil =>
    intro b hl _
    cases b with
    | nil => rfl
    | cons y ys => simp at hl
  | cons x xs ih =>
    intro b hl hz
    cases b with
    | nil => simp at hl
    | cons y ys =>
      have hx : x = y := hz (x, y) (by simp [List.zip_cons_cons])
      have : xs = ys := by
        refine ih ys (by simpa using hl) fun p hp => hz p ?_
        simp [List.zip_cons_cons, hp]
      rw [hx, this]

theorem zip_self_fst_eq_snd (a : List Nat) : ∀ p ∈ a.zip a, p.1 = p.2 := by
  induction a with
  | nil => intro p hp; simp at hp
  | cons x xs ih =>
    intro p hp
    rw [List.zip_cons_cons] at hp
    rcases List.mem_cons.mp hp with rfl | hp
    · rfl
    · exact ih p hp

/-- The constant-time comparison decides byte-list equality. -/
theorem constant_time_eq_iff (a b : List Nat) : constant_time_eq a b = true ↔ a = b := by
  unfold constant_time_eq
  by_cases hl : a.length = b.length
  · rw [if_neg (by omega)]
    rw [beq_iff_eq, foldl_or_xor_eq_zero]
    constructor
    · rintro ⟨-, h⟩
      exact eq_of_zip_fst_eq_snd a b hl h
    · rintro rfl
      exact ⟨rfl, zip_self_fst_eq_snd a⟩
  · rw [if_pos (by omega)]
    constructor
    · intro h
      cases h
    · rintro rfl
      exact absurd rfl hl

theorem charUtf8Bytes_ascii (c : Char) (h : c.toNat < 0x80) :
    charUtf8Bytes c = [c.toNat] := by
  simp [charUtf8Bytes, h]

theorem charUtf8Bytes_head_ge (c : Char) (h : ¬ c.toNat < 0x80) :
    ∃ b t, charUtf8Bytes c = b :: t ∧ 0x80 ≤ b := by
  unfold charUtf8Bytes
  rw [if_neg h]
  by_cases h2 : c.toNat < 0x800
  · rw [if_pos h2]
    exact ⟨_, _, rfl, by omega⟩
  · rw [if_neg h2]
    by_cases h3 : c.toNat < 0x10000
    · rw [if_pos h3]
      exact ⟨_, _, rfl, by omega⟩
    · rw [if_neg h3]
      exact ⟨_, _, rfl, by omega⟩

theorem charUtf8Bytes_ne_nil (c : Char) : charUtf8Bytes c ≠ [] := by
  by_cases h : c.toNat < 0x80
  · rw [charUtf8Bytes_ascii c h]
    simp
  · obtain ⟨b, t, hb, -⟩ := charUtf8Bytes_head_ge c h
    rw [hb]
    simp

/-- UTF-8 byte equality implies char equality when the left side is
all-ASCII (an ASCII byte never equals a non-ASCII leading byte). -/
theorem flatMap_charUtf8_ascii_inj : ∀ (e p : List Char),
    (∀ c ∈ e, c.toNat < 0x80) →
    e.flatMap charUtf8Bytes = p.flatMap charUtf8Bytes → e = p := by
  intro e
  induction e with
  | nil =>
    intro p _ h
    cases p with
    | nil => rfl
    | cons d p' =>
      exfalso
      rw [List.flatMap_nil, List.flatMap_cons] at h
      cases hd : charUtf8Bytes d with
      | nil => exact charUtf8Bytes_ne_nil d hd
      | cons b t =>
        rw [hd, List.cons_append] at h
        cases h
  | cons c e' ih =>
    intro p hall h
    cases p with
    | nil =>
      exfalso
      rw [List.flatMap_nil, List.flatMap_cons] at h
      cases hc : charUtf8Bytes c with
      | nil => exact charUtf8Bytes_ne_nil c hc
      | cons b t =>
        rw [hc, List.cons_append] at h
        cases h
    | cons d p' =>
      have hc : c.toNat < 0x80 := hall c (List.mem_cons_self _ _)
      rw [List.flatMap_cons, List.flatMap_cons, charUtf8Bytes_ascii c hc,
        List.cons_append, List.nil_append] at h
      by_cases hd : d.toNat < 0x80
      · rw [charUtf8Bytes_ascii d hd, List.cons_append, List.nil_append] at h
        injection h with h1 h2
        have hcd : c = d := Char.ext (UInt32.toNat.inj h1)
        rw [hcd, ih p' (fun x hx => hall x (List.mem_cons_of_mem _ hx)) h2]
      · obtain ⟨b, t, hb, hge⟩ := charUtf8Bytes_head_ge d hd
        rw [hb, List.cons_append] at h
        injection h with h1 h2
        exfalso
        omega

/-- C4 (amended): `verify_hmac` accepts iff no secret is configured, or
the header is present and its value — with all leading `sha256=`
prefixes repeatedly stripped — equals the (ASCII hex) HMAC output; and
`constant_time_eq` decides byte-string equality (differing lengths are
false). -/
theorem verify_hmac_spec (computeHmac : List Nat → String → String)
    (body : List Nat) (header_value secret : Option String) (a b : List Nat)
    (hhex : ∀ bo s, ∀ c ∈ (computeHmac bo s).data, c.toNat < 0x80) :
    ((verify_hmac computeHmac body header_value secret).isOk = true ↔
      (secret = none ∨ ∃ s hv, secret = some s ∧ header_value = some hv ∧
        String.mk (stripSha256All hv.data) = computeHmac body s)) ∧
    (constant_time_eq a b = true ↔ a = b) := by
  refine ⟨?_, constant_time_eq_iff a b⟩
  match secret with
  | none => simp [verify_hmac, Except.isOk, Except.toBool]
  | some s =>
    match header_value with
    | none => simp [verify_hmac, Except.isOk, Except.toBool]
    | some hv =>
      simp only [verify_hmac]
      by_cases hc : constant_time_eq (strBytes (computeHmac body s))
          (strBytes (String.mk (stripSha256All hv.data))) = true
      · rw [if_pos hc]
        simp only [Except.isOk, Except.toBool, true_iff]
        refine Or.inr ⟨s, hv, rfl, rfl, ?_⟩
        have hbytes := (constant_time_eq_iff _ _).mp hc
        have hdata : (computeHmac body s).data =
            (String.mk (stripSha256All hv.data)).data :=
          flatMap_charUtf8_ascii_inj _ _ (hhex body s) hbytes
        exact congrArg String.mk hdata.symm
      · rw [if_neg hc]
        simp only [Except.isOk, Except.toBool, Bool.false_eq_true, false_iff]
        rintro (h | ⟨s', hv', hs', hhv', heq⟩)
        · cases h
        · rw [Option.some.injEq] at hs' hhv'
          subst hs'
          subst hhv'
          exact hc ((constant_time_eq_iff _ _).mpr (congrArg strBytes heq.symm))

/-- C4 counterexample: the code strips `sha256=` repeatedly
(`trim_start_matches`), so the header `"sha256=sha256=ab"` is accepted
against the hex output `"ab"`, while the claim's single optional strip
leaves `"sha256=ab"`, which differs — the claimed iff fails. -/
theorem verify_hmac_single_strip_cex :
    (verify_hmac (fun _ _ => "ab") [] (some "sha256=sha256=ab") (some "k")).isOk = true ∧
    ¬ ((some "k" : Option String) = none ∨
      ∃ s hv, (some "k" : Option String) = some s ∧
        (some "sha256=sha256=ab" : Option String) = some hv ∧
        String.mk (stripSha256Once hv.data) = (fun (_ : List Nat) (_ : String) => "ab") [] s) := by
  constructor
  · decide
  · rintro (h | ⟨s, hv, hs, hhv, heq⟩)
    · cases h
    · rw [Option.some.injEq] at hs hhv
      subst hs
      subst hhv
      exact absurd heq (by decide)

/-- C4 witness: a valid single-prefixed signature is accepted, a missing
header with a configured secret is rejected, no secret accepts, and the
constant-time comparison on concrete byte strings. -/
theorem verify_hmac_spec_witness :
    (verify_hmac (fun _ _ => "ab") [] (some "sha256=ab") (some "k")).isOk = true ∧
    (verify_hmac (fun _ _ => "ab") [] none (some "k")).isOk = false ∧
    (verify_hmac (fun _ _ => "ab") [] none none).isOk = true ∧
    constant_time_eq [1, 2] [1, 2] = true ∧
    constant_time_eq [1] [1, 2] = false := by
  have hhex : ∀ (bo : List Nat) (s : String),
      ∀ c ∈ ((fun (_ : List Nat) (_ : String) => "ab") bo s).data, c.toNat < 0x80 := by
    intro bo s
    show ∀ c ∈ ("ab" : String).data, c.toNat < 0x80
    decide
  refine ⟨?_, ?_, ?_, ?_, ?_⟩
  · exact (verify_hmac_spec (fun _ _ => "ab") [] (some "sha256=ab") (some "k")
      [] [] hhex).1.mpr (Or.inr ⟨"k", "sha256=ab", rfl, rfl, by decide⟩)
  · have h := (verify_hmac_spec (fun _ _ => "ab") [] none (some "k") [] [] hhex).1
    cases hv : (verify_hmac (fun _ _ => "ab") [] none (some "k")).isOk with
    | false => rfl
    | true =>
      exfalso
      rcases h.mp hv with h1 | ⟨s, hv', h1, h2, -⟩
      · cases h1
      · cases h2
  · exact (verify_hmac_spec (fun _ _ => "ab") [] none none [] [] hhex).1.mpr (Or.inl rfl)
  · exact (verify_hmac_spec (fun _ _ => "ab") [] none none [1, 2] [1, 2] hhex).2.mpr rfl
  · have h := (verify_hmac_spec (fun _ _ => "ab") [] none none [1] [1, 2] hhex).2
    cases hv : constant_time_eq [1] [1, 2] with
    | false => rfl
    | true =>
      exfalso
      have := h.mp hv
      cases this

/-! ## Mattermost mention detection (`channels/mattermost.rs`)

`find_bot_mention_spans` scans the UTF-8 bytes of the text. We model the
text as its char list and track byte positions explicitly. Byte-wise
`eq_ignore_ascii_case` over two valid UTF-8 sequences coincides with the
char-wise comparison below: ASCII bytes compare case-folded, non-ASCII
bytes (all ≥ 0x80) compare exactly, and char alignment is forced because
an ASCII byte (< 0x80) never case-folds onto a non-ASCII byte. Core
`Char.toLower` is exactly Rust `char::to_ascii_lowercase` (A–Z ↦ +32). -/

theorem utf8Size_eq_one_of_toNat_lt (c : Char) (h : c.toNat < 0x80) : c.utf8Size = 1 := by
  rw [Char.utf8Size]
  rw [if_pos]
  change c.toNat ≤ 127
  omega

theorem toNat_ofNat_of_lt (n : Nat) (h : n < 0xD800) : (Char.ofNat n).toNat = n := by
  unfold Char.ofNat
  split
  · rfl
  · rename_i hv
    exact absurd (Or.inl h) hv

theorem utf8Size_toLower (c : Char) : c.toLower.utf8Size = c.utf8Size := by
  by_cases h : c.toNat ≥ 65 ∧ c.toNat ≤ 90
  · have h1 : (Char.ofNat (c.toNat + 32)).toNat = c.toNat + 32 :=
      toNat_ofNat_of_lt _ (by omega)
    simp only [Char.toLower, if_pos h]
    rw [utf8Size_eq_one_of_toNat_lt _ (by omega),
      utf8Size_eq_one_of_toNat_lt _ (by omega)]
  · simp only [Char.toLower, if_neg h]

theorem toLower_idem (c : Char) : c.toLower.toLower = c.toLower := by
  by_cases h : c.toNat ≥ 65 ∧ c.toNat ≤ 90
  · have h1 : (Char.ofNat (c.toNat + 32)).toNat = c.toNat + 32 :=
      toNat_ofNat_of_lt _ (by omega)
    simp only [Char.toLower, if_pos h]
    rw [if_neg (by omega)]
  · simp only [Char.toLower, if_neg h]

/-- `u8::eq_ignore_ascii_case`, char-wise. -/
def eqIgnoreAsciiCase (a b : Char) : Bool := a.toLower == b.toLower

/-- `is_mattermost_username_char` from `channels/mattermost.rs`. -/
def is_mattermost_username_char (c : Char) : Bool :=
  (('a' ≤ c && c ≤ 'z') || ('A' ≤ c && c ≤ 'Z') || ('0' ≤ c && c ≤ '9'))
    || c == '_' || c == '-' || c == '.'

/-- The `is_match` window test: the mention matches at the head of `t`
under `eq_ignore_ascii_case`. The separate `text_bytes[index] == b'@'`
check is subsumed: `@` only case-folds to itself. -/
def matchesMention : List Char → List Char → Bool
  | [], _ => true
  | _ :: _, [] => false
  | a :: ms, b :: t => eqIgnoreAsciiCase b a && matchesMention ms t

/-- The boundary test `text[end..].chars().next().is_none_or(|c| !is_mattermost_username_char(c))`. -/
def atUsernameBoundary : List Char → Bool
  | [] => true
  | c :: _ => !is_mattermost_username_char c

theorem utf8Size_eq_of_eqIgnore (a b : Char) (h : eqIgnoreAsciiCase a b = true) :
    a.utf8Size = b.utf8Size := by
  rw [eqIgnoreAsciiCase, beq_iff_eq] at h
  calc a.utf8Size = a.toLower.utf8Size := (utf8Size_toLower a).symm
    _ = b.toLower.utf8Size := by rw [h]
    _ = b.utf8Size := utf8Size_toLower b

/-- The scanning loop of `find_bot_mention_spans`. `m :: ms` is the
lowercased mention `"@" + username`, `pos` the current byte index. On a
boundary-qualified match the span is pushed and the scan resumes at the
match end; otherwise it advances one char. The loop consumes at least
one char per iteration, so `t.length` fuel makes the recursion
structural (and kernel-computable) without changing behaviour. -/
def scanGo (m : Char) (ms : List Char) : Nat → Nat → List Char → List (Nat × Nat)
  | 0, _, _ => []
  | _ + 1, _, [] => []
  | fuel + 1, pos, c :: rest =>
    if matchesMention (m :: ms) (c :: rest) &&
        atUsernameBoundary ((c :: rest).drop (m :: ms).length) then
      (pos, pos + utf8Len (m :: ms)) ::
        scanGo m ms fuel (pos + utf8Len (m :: ms)) ((c :: rest).drop (m :: ms).length)
    else
      scanGo m ms fuel (pos + c.utf8Size) rest

/-- `find_bot_mention_spans` from `channels/mattermost.rs`: empty
username yields no spans; otherwise scan with the lowercased mention.
(The `mention_len == 0` early return is unreachable: the mention always
starts with `@`.) -/
def find_bot_mention_spans (text bot_username : String) : List (Nat × Nat) :=
  if bot_username.data.isEmpty then []
  else scanGo '@' (bot_username.data.map Char.toLower) text.data.length 0 text.data

/-- The claim's mention predicate at byte span `(i, e)`: the text at char
boundary `i` starts — ASCII-case-insensitively — with the mention, the
char right after is absent or not a username char, and `e` is `i` plus
the mention's byte length. -/
def spanValid (text mention : List Char) (i e : Nat) : Bool :=
  match suffixAtByte text i with
  | none => false
  | some suf =>
    matchesMention mention suf && atUsernameBoundary (suf.drop mention.length) &&
      (e == i + utf8Len mention)

theorem spanValid_elim (text mention : List Char) (i e : Nat)
    (h : spanValid text mention i e = true) :
    ∃ suf, suffixAtByte text i = some suf ∧ matchesMention mention suf = true ∧
      atUsernameBoundary (suf.drop mention.length) = true ∧ e = i + utf8Len mention := by
  unfold spanValid at h
  match hs : suffixAtByte text i with
  | none =>
    rw [hs] at h
    cases h
  | some suf =>
    rw [hs] at h
    simp only [Bool.and_eq_true, beq_iff_eq] at h
    exact ⟨suf, rfl, h.1.1, h.1.2, h.2⟩

theorem spanValid_intro (text mention suf : List Char) (i : Nat)
    (hsuf : suffixAtByte text i = some suf)
    (h1 : matchesMention mention suf = true)
    (h2 : atUsernameBoundary (suf.drop mention.length) = true) :
    spanValid text mention i (i + utf8Len mention) = true := by
  unfold spanValid
  rw [hsuf]
  simp [h1, h2]

theorem matchesMention_length : ∀ (mention t : List Char),
    matchesMention mention t = true → mention.length ≤ t.length := by
  intro mention
  induction mention with
  | nil =>
    intro t _
    simp
  | cons a ms ih =>
    intro t h
    cases t with
    | nil => simp [matchesMention] at h
    | cons b t' =>
      simp only [matchesMention, Bool.and_eq_true] at h
      have := ih t' h.2
      simp only [List.length_cons]
      omega

theorem matchesMention_utf8Len_take : ∀ (mention t : List Char),
    matchesMention mention t = true →
    utf8Len (t.take mention.length) = utf8Len mention := by
  intro mention
  induction mention with
  | nil =>
    intro t _
    simp [utf8Len]
  | cons a ms ih =>
    intro t h
    cases t with
    | nil => simp [matchesMention] at h
    | cons b t' =>
      simp only [matchesMention, Bool.and_eq_true] at h
      rw [List.length_cons, List.take_succ_cons, utf8Len_cons, utf8Len_cons,
        ih t' h.2, utf8Size_eq_of_eqIgnore b a h.1]

theorem spanValid_not_beyond (text : List Char) (m : Char) (ms : List Char)
    (pos i e : Nat) (hsuf : suffixAtByte text pos = some []) (hip : pos ≤ i)
    (hv : spanValid text (m :: ms) i e = true) : False := by
  obtain ⟨suf, hsufi, hm, _, _⟩ := spanValid_elim text (m :: ms) i e hv
  have hadd := suffixAtByte_add text pos (i - pos) [] hsuf
  rw [show pos + (i - pos) = i by omega] at hadd
  rw [hadd] at hsufi
  cases hd : i - pos with
  | zero =>
    rw [hd, suffixAtByte_zero] at hsufi
    cases hsufi
    simp [matchesMention] at hm
  | succ k =>
    rw [hd] at hsufi
    cases hsufi

/-- Master lemma for the scanning loop: every produced span is a valid
boundary-qualified mention occurrence of exact mention byte length,
spans are produced left-to-right without overlap, and every valid
occurrence at or after the scan position is covered by some span. -/
theorem scanGo_master (m : Char) (ms : List Char) (text : List Char) :
    ∀ (fuel : Nat) (t : List Char) (pos : Nat), t.length ≤ fuel →
      suffixAtByte text pos = some t →
      (∀ p ∈ scanGo m ms fuel pos t,
        spanValid text (m :: ms) p.1 p.2 = true ∧ pos ≤ p.1 ∧
        p.2 = p.1 + utf8Len (m :: ms)) ∧
      List.Chain' (fun p q => p.2 ≤ q.1) (scanGo m ms fuel pos t) ∧
      (∀ i e, spanValid text (m :: ms) i e = true → pos ≤ i →
        ∃ p ∈ scanGo m ms fuel pos t, p.1 ≤ i ∧ i < p.2) := by
  intro fuel
  induction fuel with
  | zero =>
    intro t pos hlen hsuf
    have ht : t = [] := List.eq_nil_of_length_eq_zero (by omega)
    subst ht
    refine ⟨?_, ?_, ?_⟩
    · intro p hp
      simp [scanGo] at hp
    · simp [scanGo]
    · intro i e hv hip
      exact absurd hv (fun hv => spanValid_not_beyond text m ms pos i e hsuf hip hv)
  | succ fuel ih =>
    intro t pos hlen hsuf
    match t with
    | [] =>
      refine ⟨?_, ?_, ?_⟩
      · intro p hp
        simp [scanGo] at hp
      · simp [scanGo]
      · intro i e hv hip
        exact absurd hv (fun hv => spanValid_not_beyond text m ms pos i e hsuf hip hv)
    | c :: rest =>
      by_cases hcond : (matchesMention (m :: ms) (c :: rest) &&
          atUsernameBoundary ((c :: rest).drop (m :: ms).length)) = true
      · have hscan : scanGo m ms (fuel + 1) pos (c :: rest) =
            (pos, pos + utf8Len (m :: ms)) ::
              scanGo m ms fuel (pos + utf8Len (m :: ms))
                ((c :: rest).drop (m :: ms).length) := by
          simp only [scanGo]
          rw [if_pos hcond]
        obtain ⟨hmatch, hbound⟩ : matchesMention (m :: ms) (c :: rest) = true ∧
            atUsernameBoundary ((c :: rest).drop (m :: ms).length) = true := by
          rw [Bool.and_eq_true] at hcond
          exact hcond
        have hmlen : (m :: ms).length ≤ (c :: rest).length :=
          matchesMention_length _ _ hmatch
        have htake : utf8Len ((c :: rest).take (m :: ms).length) = utf8Len (m :: ms) :=
          matchesMention_utf8Len_take _ _ hmatch
        have hnext : suffixAtByte text (pos + utf8Len (m :: ms)) =
            some ((c :: rest).drop (m :: ms).length) := by
          have h1 := suffixAtByte_utf8Len_take (c :: rest) (m :: ms).length hmlen
          rw [htake] at h1
          exact (suffixAtByte_add text pos (utf8Len (m :: ms)) (c :: rest) hsuf).trans h1
        have hlen' : ((c :: rest).drop (m :: ms).length).length ≤ fuel := by
          rw [List.length_drop]
          simp only [List.length_cons] at hlen ⊢
          omega
        obtain ⟨ih1, ih2, ih3⟩ :=
          ih ((c :: rest).drop (m :: ms).length) (pos + utf8Len (m :: ms)) hlen' hnext
        have hspan : spanValid text (m :: ms) pos (pos + utf8Len (m :: ms)) = true :=
          spanValid_intro text (m :: ms) (c :: rest) pos hsuf hmatch hbound
        rw [hscan]
        refine ⟨?_, ?_, ?_⟩
        · intro p hp
          rcases List.mem_cons.mp hp with rfl | hp
          · exact ⟨hspan, le_refl _, rfl⟩
          · obtain ⟨s1, s2, s3⟩ := ih1 p hp
            exact ⟨s1, le_trans (Nat.le_add_right _ _) s2, s3⟩
        · rw [List.chain'_cons']
          refine ⟨?_, ih2⟩
          intro b hb
          exact (ih1 b (List.mem_of_mem_head? hb)).2.1
        · intro i e hv hip
          by_cases hi : i < pos + utf8Len (m :: ms)
          · exact ⟨(pos, pos + utf8Len (m :: ms)), List.mem_cons_self _ _, hip, hi⟩
          · obtain ⟨p, hp, h1, h2⟩ := ih3 i e hv (by omega)
            exact ⟨p, List.mem_cons_of_mem _ hp, h1, h2⟩
      · have hscan : scanGo m ms (fuel + 1) pos (c :: rest) =
            scanGo m ms fuel (pos + c.utf8Size) rest := by
          simp only [scanGo]
          rw [if_neg hcond]
        have hsz := Char.utf8Size_pos c
        have hnext : suffixAtByte text (pos + c.utf8Size) = some rest := by
          have h1 : suffixAtByte (c :: rest) c.utf8Size = some rest := by
            rw [suffixAtByte_cons_pos c rest c.utf8Size hsz, if_pos (le_refl _),
              Nat.sub_self, suffixAtByte_zero]
          exact (suffixAtByte_add text pos c.utf8Size (c :: rest) hsuf).trans h1
        have hlen' : rest.length ≤ fuel := by
          simp only [List.length_cons] at hlen
          omega
        obtain ⟨ih1, ih2, ih3⟩ := ih rest (pos + c.utf8Size) hlen' hnext
        rw [hscan]
        refine ⟨?_, ih2, ?_⟩
        · intro p hp
          obtain ⟨s1, s2, s3⟩ := ih1 p hp
          exact ⟨s1, le_trans (Nat.le_add_right _ _) s2, s3⟩
        · intro i e hv hip
          rcases Nat.eq_or_lt_of_le hip with heq | hlt
          · exfalso
            obtain ⟨suf, hsufi, hm, hb, -⟩ := spanValid_elim text (m :: ms) i e hv
            rw [← heq, hsuf] at hsufi
            injection hsufi with hsufi
            subst hsufi
            apply hcond
            rw [Bool.and_eq_true]
            exact ⟨hm, hb⟩
          · have hisSome : (suffixAtByte text i).isSome = true := by
              obtain ⟨suf, hsufi, -, -, -⟩ := spanValid_elim text (m :: ms) i e hv
              rw [hsufi]
              rfl
            have hstep := suffixAtByte_isSome_gt text pos i c rest hsuf hisSome hlt
            exact ih3 i e hv hstep

theorem eqIgnore_toLower_right (a b : Char) :
    eqIgnoreAsciiCase a b.toLower = eqIgnoreAsciiCase a b := by
  unfold eqIgnoreAsciiCase
  rw [toLower_idem]

theorem matchesMention_map_toLower : ∀ (mention t : List Char),
    matchesMention (mention.map Char.toLower) t = matchesMention mention t := by
  intro mention
  induction mention with
  | nil =>
    intro t
    simp
  | cons a ms ih =>
    intro t
    cases t with
    | nil => simp [matchesMention]
    | cons b t' =>
      simp only [List.map_cons, matchesMention, ih, eqIgnore_toLower_right]

theorem utf8Len_map_toLower (l : List Char) :
    utf8Len (l.map Char.toLower) = utf8Len l := by
  induction l with
  | nil => rfl
  | cons c rest ih => simp [List.map_cons, utf8Len_cons, ih, utf8Size_toLower]

theorem spanValid_map_toLower (text mention : List Char) (i e : Nat) :
    spanValid text (mention.map Char.toLower) i e = spanValid text mention i e := by
  cases hs : suffixAtByte text i with
  | none => simp [spanValid, hs]
  | some suf =>
    simp only [spanValid, hs]
    rw [matchesMention_map_toLower, List.length_map, utf8Len_map_toLower]

/-- C5: for a non-empty username, `find_bot_mention_spans` returns
exactly the greedy left-to-right non-overlapping set of byte spans at
which `@username` occurs ASCII-case-insensitively followed by a
non-username char (or end of text): every returned span is such an
occurrence, spans are non-overlapping and non-empty, every occurrence
position is covered by a returned span, and `"@mybotx"` yields no span
for `"mybot"`. -/
theorem find_bot_mention_spans_spec (text bot_username : String)
    (hne : bot_username.data ≠ []) :
    (∀ p ∈ find_bot_mention_spans text bot_username,
      spanValid text.data ('@' :: bot_username.data) p.1 p.2 = true) ∧
    List.Chain' (fun p q => p.2 ≤ q.1) (find_bot_mention_spans text bot_username) ∧
    (∀ p ∈ find_bot_mention_spans text bot_username, p.1 < p.2) ∧
    (∀ i e, spanValid text.data ('@' :: bot_username.data) i e = true →
      ∃ p ∈ find_bot_mention_spans text bot_username, p.1 ≤ i ∧ i < p.2) ∧
    find_bot_mention_spans "@mybotx" "mybot" = [] := by
  have hat : ('@' : Char).toLower = '@' := by decide
  have hmention : ('@' :: bot_username.data.map Char.toLower) =
      ('@' :: bot_username.data).map Char.toLower := by
    rw [List.map_cons, hat]
  have hspaneq : ∀ i e : Nat,
      spanValid text.data ('@' :: bot_username.data.map Char.toLower) i e =
        spanValid text.data ('@' :: bot_username.data) i e := by
    intro i e
    rw [hmention, spanValid_map_toLower]
  have hfind : find_bot_mention_spans text bot_username =
      scanGo '@' (bot_username.data.map Char.toLower) text.data.length 0 text.data := by
    unfold find_bot_mention_spans
    rw [if_neg (by simpa using hne)]
  obtain ⟨hsound, hchain, hcomp⟩ :=
    scanGo_master '@' (bot_username.data.map Char.toLower) text.data
      text.data.length text.data 0 (le_refl _) (suffixAtByte_zero _)
  refine ⟨?_, ?_, ?_, ?_, by decide⟩
  · intro p hp
    rw [hfind] at hp
    have h := (hsound p hp).1
    rw [hspaneq p.1 p.2] at h
    exact h
  · rw [hfind]
    exact hchain
  · intro p hp
    rw [hfind] at hp
    obtain ⟨-, -, h3⟩ := hsound p hp
    have hpos : 0 < utf8Len ('@' :: bot_username.data.map Char.toLower) := by
      rw [utf8Len_cons]
      have := Char.utf8Size_pos '@'
      omega
    omega
  · intro i e hv
    rw [hfind]
    exact hcomp i e (by rw [hspaneq i e]; exact hv) (Nat.zero_le i)

/-- C5 witness: `"Hi @MyBot!"` with username `"mybot"` yields exactly the
span (3, 9), which satisfies the occurrence predicate; `"@mybotx"`
yields none. -/
theorem find_bot_mention_spans_spec_witness :
    find_bot_mention_spans "Hi @MyBot!" "mybot" = [(3, 9)] ∧
    spanValid "Hi @MyBot!".data ('@' :: "mybot".data) 3 9 = true ∧
    find_bot_mention_spans "@mybotx" "mybot" = [] := by
  refine ⟨by decide, ?_,
    (find_bot_mention_spans_spec "Hi @MyBot!" "mybot" (by decide)).2.2.2.2⟩
  have h := (find_bot_mention_spans_spec "Hi @MyBot!" "mybot" (by decide)).1
  exact h (3, 9) (by decide)

/-! ## Content normalization (`channels/mattermost.rs`)

The post's `metadata.mentions` array is modelled as
`Option (List (Option String))`: `none` when absent or not an array,
elements given as their `as_str()` results. -/

/-- The `metadata_mentions_bot` check in `normalize_mattermost_content`
(also the second source of `contains_bot_mention_mm`). -/
def metadataMentionsBot (bot_user_id : String)
    (metadata_mentions : Option (List (Option String))) : Bool :=
  !(bot_user_id == "") &&
    (match metadata_mentions with
     | some l => l.any fun x => x == some bot_user_id
     | none => false)

/-- `contains_bot_mention_mm` from `channels/mattermost.rs`. -/
def contains_bot_mention_mm (text bot_user_id bot_username : String)
    (metadata_mentions : Option (List (Option String))) : Bool :=
  !(find_bot_mention_spans text bot_username).isEmpty ||
    metadataMentionsBot bot_user_id metadata_mentions

/-- Rust `char::is_whitespace`: the Unicode `White_Space` property
(U+0009–U+000D, U+0020, U+0085, U+00A0, U+1680, U+2000–U+200A, U+2028,
U+2029, U+202F, U+205F, U+3000). -/
def rustIsWhitespace (c : Char) : Bool :=
  c.toNat == 0x9 || c.toNat == 0xA || c.toNat == 0xB || c.toNat == 0xC ||
  c.toNat == 0xD || c.toNat == 0x20 || c.toNat == 0x85 || c.toNat == 0xA0 ||
  c.toNat == 0x1680 || (0x2000 ≤ c.toNat && c.toNat ≤ 0x200A) ||
  c.toNat == 0x2028 || c.toNat == 0x2029 || c.toNat == 0x202F ||
  c.toNat == 0x205F || c.toNat == 0x3000

/-- Rust `str::trim`. -/
def rustTrim (l : List Char) : List Char :=
  ((l.dropWhile rustIsWhitespace).reverse.dropWhile rustIsWhitespace).reverse

def dropBytes : List Char → Nat → List Char
  | t, 0 => t
  | [], _ + 1 => []
  | c :: rest, i + 1 => dropBytes rest (i + 1 - c.utf8Size)

theorem dropBytes_zero (t : List Char) : dropBytes t 0 = t := by
  cases t <;> rfl

/-- The span-replacement loop of `normalize_mattermost_content`: per
span, copy `text[cursor..start]`, push one space, move the cursor to the
span end; finally copy `text[cursor..]`. -/
def stripSpansGo (text : List Char) : Nat → List (Nat × Nat) → List Char
  | cursor, [] => dropBytes text cursor
  | cursor, (s, e) :: rest =>
    takeBytes (dropBytes text cursor) (s - cursor) ++ ' ' :: stripSpansGo text e rest

/-- `normalize_mattermost_content` from `channels/mattermost.rs`. -/
def normalize_mattermost_content (text bot_user_id bot_username : String)
    (metadata_mentions : Option (List (Option String))) : Option String :=
  let mention_spans := find_bot_mention_spans text bot_username
  let metadata_mentions_bot := metadataMentionsBot bot_user_id metadata_mentions
  if mention_spans.isEmpty && !metadata_mentions_bot then none
  else
    let cleaned :=
      if mention_spans.isEmpty then text.data
      else stripSpansGo text.data 0 mention_spans
    let cleaned := rustTrim cleaned
    if cleaned.isEmpty then none else some (String.mk cleaned)

/-- The two code paths of `normalize_mattermost_content` collapsed: with
no spans the replacement loop is the identity, so a single
`stripSpansGo` expression describes `cleaned` in both branches. -/
theorem normalize_shape (text bot_user_id bot_username : String)
    (mm : Option (List (Option String))) :
    normalize_mattermost_content text bot_user_id bot_username mm =
      (if (find_bot_mention_spans text bot_username).isEmpty &&
          !metadataMentionsBot bot_user_id mm then none
       else if (rustTrim (stripSpansGo text.data 0
           (find_bot_mention_spans text bot_username))).isEmpty then none
       else some (String.mk (rustTrim (stripSpansGo text.data 0
           (find_bot_mention_spans text bot_username))))) := by
  have hstrip_nil : stripSpansGo text.data 0 [] = text.data := by
    rw [stripSpansGo, dropBytes_zero]
  simp only [normalize_mattermost_content]
  by_cases hsp : find_bot_mention_spans text bot_username = []
  · rw [hsp, hstrip_nil]
    simp
  · have hsp' : (find_bot_mention_spans text bot_username).isEmpty = false := by
      simp [hsp]
    simp [hsp']

/-- C6: `normalize_mattermost_content` returns `None` iff (no mention
span and no metadata mention) or the stripped-and-trimmed text is empty;
otherwise it returns `Some` of the text with every span replaced by one
space, trimmed. -/
theorem normalize_content_spec (text bot_user_id bot_username : String)
    (mm : Option (List (Option String))) :
    (normalize_mattermost_content text bot_user_id bot_username mm = none ↔
      ((find_bot_mention_spans text bot_username = [] ∧
        metadataMentionsBot bot_user_id mm = false) ∨
       rustTrim (stripSpansGo text.data 0 (find_bot_mention_spans text bot_username)) = [])) ∧
    (∀ r, normalize_mattermost_content text bot_user_id bot_username mm = some r →
      r = String.mk
        (rustTrim (stripSpansGo text.data 0 (find_bot_mention_spans text bot_username)))) := by
  rw [normalize_shape]
  constructor
  · by_cases h1 : ((find_bot_mention_spans text bot_username).isEmpty &&
        !metadataMentionsBot bot_user_id mm) = true
    · rw [if_pos h1]
      rw [Bool.and_eq_true, List.isEmpty_eq_true, Bool.not_eq_true'] at h1
      exact ⟨fun _ => Or.inl h1, fun _ => rfl⟩
    · rw [if_neg h1]
      by_cases h2 : (rustTrim (stripSpansGo text.data 0
          (find_bot_mention_spans text bot_username))).isEmpty = true
      · rw [if_pos h2]
        exact ⟨fun _ => Or.inr (List.isEmpty_eq_true.mp h2), fun _ => rfl⟩
      · rw [if_neg h2]
        constructor
        · intro h
          cases h
        · rintro (⟨ha, hb⟩ | hc)
          · exfalso
            apply h1
            rw [Bool.and_eq_true, List.isEmpty_eq_true, Bool.not_eq_true']
            exact ⟨ha, hb⟩
          · exfalso
            apply h2
            rw [List.isEmpty_eq_true]
            exact hc
  · intro r hr
    by_cases h1 : ((find_bot_mention_spans text bot_username).isEmpty &&
        !metadataMentionsBot bot_user_id mm) = true
    · rw [if_pos h1] at hr
      cases hr
    · rw [if_neg h1] at hr
      by_cases h2 : (rustTrim (stripSpansGo text.data 0
          (find_bot_mention_spans text bot_username))).isEmpty = true
      · rw [if_pos h2] at hr
        cases hr
      · rw [if_neg h2] at hr
        injection hr with hr
        exact hr.symm

/-- C6 witness: a bare mention normalizes to `None`, no mention at all is
`None`, and a mention with content is stripped to a single space and
trimmed. -/
theorem normalize_content_spec_witness :
    normalize_mattermost_content "@mybot" "BOT" "mybot" none = none ∧
    normalize_mattermost_content "hello" "BOT" "mybot" none = none ∧
    normalize_mattermost_content "@mybot ship it" "BOT" "mybot" none = some "ship it" ∧
    "ship it" = String.mk (rustTrim (stripSpansGo ("@mybot ship it" : String).data 0
      (find_bot_mention_spans "@mybot ship it" "mybot"))) := by
  refine ⟨?_, ?_, by decide, ?_⟩
  · exact (normalize_content_spec "@mybot" "BOT" "mybot" none).1.mpr (Or.inr (by decide))
  · exact (normalize_content_spec "hello" "BOT" "mybot" none).1.mpr
      (Or.inl ⟨by decide, by decide⟩)
  · exact (normalize_content_spec "@mybot ship it" "BOT" "mybot" none).2 "ship it"
      (by decide)

/-! ## Mattermost post parsing (`channels/mattermost.rs`)

`parse_mattermost_post` reads `&self` and mutates the thread activity
tracker; here the activity map and the current abstract time are
threaded explicitly, and the function returns the optional message
together with the updated map. `guard` stands for
`self.prompt_guard.scan`, whose implementation lives in `src/security`,
outside the modelled sources; the claims hold for every guard. -/

/-- `GuardResult` from `src/security` (payloads that are only logged are
kept just as far as the dispatch needs them). -/
inductive GuardResult : Type where
  | Safe : GuardResult
  | Suspicious : List String → GuardResult
  | Blocked : String → GuardResult

structure ChannelMessage : Type where
  id : String
  sender : String
  reply_target : String
  content : String
  channel : String
  timestamp : Nat
  thread_ts : Option String
deriving DecidableEq, Repr

/-- The fields `parse_mattermost_post` reads from the post JSON, with
the `unwrap_or` defaults already applied by the caller. -/
structure MMPost : Type where
  id : String
  user_id : String
  message : String
  create_at : Int
  root_id : String
  metadata_mentions : Option (List (Option String))

/-- The configuration fields of `MattermostChannel` that
`parse_mattermost_post` consults. `thread_ttl` is the activity TTL in
abstract time units. -/
structure MMConfig : Type where
  allowed_users : List String
  thread_replies : Bool
  mention_only : Bool
  group_reply_allowed_sender_ids : List String
  thread_ttl : Nat

/-- `ThreadActivityState::is_active`: touched within the TTL window
(`t.elapsed() < ttl` with `Instant` as abstract `Nat` time). -/
def activityIsActive (active : List (String × Nat)) (thread_id : String)
    (now ttl : Nat) : Bool :=
  match lookupKey thread_id active with
  | some t => decide (now - t < ttl)
  | none => false

/-- `ThreadActivityState::touch`: record `now` for the thread, then
lazily evict every entry whose elapsed time reached the TTL. -/
def activityTouch (active : List (String × Nat)) (thread_id : String)
    (now ttl : Nat) : List (String × Nat) :=
  (insertKey thread_id now active).filter fun p => decide (now - p.2 < ttl)

/-- `MattermostChannel::is_group_sender_trigger_enabled`. -/
def is_group_sender_trigger_enabled (cfg : MMConfig) (user_id : String) : Bool :=
  let trimmed := String.mk (rustTrim user_id.data)
  if trimmed == "" then false
  else cfg.group_reply_allowed_sender_ids.any fun entry => entry == "*" || entry == trimmed

/-- `MattermostChannel::parse_mattermost_post`. -/
def parse_mattermost_post (cfg : MMConfig) (guard : String → GuardResult)
    (activity : List (String × Nat)) (now : Nat) (post : MMPost)
    (bot_user_id bot_username : String) (last_create_at : Int)
    (channel_id : String) : Option ChannelMessage × List (String × Nat) :=
  if post.user_id == bot_user_id || decide (post.create_at ≤ last_create_at)
      || post.message == "" then
    (none, activity)
  else if !MattermostChannel.is_user_allowed cfg.allowed_users post.user_id then
    (none, activity)
  else
    let require_mention := cfg.mention_only &&
      !is_group_sender_trigger_enabled cfg post.user_id
    let step :=
      if require_mention then
        let thread_id := if post.root_id == "" then post.id else post.root_id
        let has_mention := contains_bot_mention_mm post.message bot_user_id
          bot_username post.metadata_mentions
        let in_active_thread := !(thread_id == "") &&
          activityIsActive activity thread_id now cfg.thread_ttl
        if has_mention then
          match normalize_mattermost_content post.message bot_user_id bot_username
              post.metadata_mentions with
          | none => none
          | some content =>
            some (content,
              if !(thread_id == "") then
                activityTouch activity thread_id now cfg.thread_ttl
              else activity)
        else if in_active_thread then
          some (post.message, activityTouch activity thread_id now cfg.thread_ttl)
        else none
      else some (post.message, activity)
    match step with
    | none => (none, activity)
    | some (content, activity') =>
      match guard content with
      | .Blocked _ => (none, activity')
      | _ =>
        let reply_target :=
          if !(post.root_id == "") then channel_id ++ ":" ++ post.root_id
          else if cfg.thread_replies then channel_id ++ ":" ++ post.id
          else channel_id
        (some {
          id := "mattermost_" ++ post.id,
          sender := post.user_id,
          reply_target := reply_target,
          content := content,
          channel := "mattermost",
          timestamp := ((post.create_at.tdiv 1000) % (2 ^ 64)).toNat,
          thread_ts := none }, activity')

/-- C7: under `mention_only` (and no group-sender bypass), a post whose
text mentions the bot but whose normalized content is empty yields no
message and leaves the activity map untouched — for every activity map,
including ones where the post's thread is currently active. -/
theorem bare_mention_no_touch (cfg : MMConfig) (guard : String → GuardResult)
    (activity : List (String × Nat)) (now : Nat) (post : MMPost)
    (bot_user_id bot_username : String) (last_create_at : Int) (channel_id : String)
    (hmo : cfg.mention_only = true)
    (hgr : is_group_sender_trigger_enabled cfg post.user_id = false)
    (hmention : contains_bot_mention_mm post.message bot_user_id bot_username
      post.metadata_mentions = true)
    (hnorm : normalize_mattermost_content post.message bot_user_id bot_username
      post.metadata_mentions = none) :
    parse_mattermost_post cfg guard activity now post bot_user_id bot_username
      last_create_at channel_id = (none, activity) := by
  unfold parse_mattermost_post
  by_cases h1 : (post.user_id == bot_user_id || decide (post.create_at ≤ last_create_at)
      || post.message == "") = true
  · rw [if_pos h1]
  · rw [if_neg h1]
    by_cases h2 : (!MattermostChannel.is_user_allowed cfg.allowed_users post.user_id) = true
    · rw [if_pos h2]
    · rw [if_neg h2]
      simp only [hmo, hgr, Bool.not_false, Bool.and_self, if_true, hmention,
        hnorm, if_true]

/-- C7 witness: a bare `"@mybot"` post in a currently-active thread
(`root_post` touched at the current instant, TTL 1800) produces no
message and leaves the activity map exactly as it was. -/
theorem bare_mention_no_touch_witness :
    parse_mattermost_post
      { allowed_users := ["*"], thread_replies := true, mention_only := true,
        group_reply_allowed_sender_ids := [], thread_ttl := 1800 }
      (fun _ => GuardResult.Safe) [("root_post", 100)] 100
      { id := "B", user_id := "U1", message := "@mybot", create_at := 2,
        root_id := "root_post", metadata_mentions := none }
      "BOT" "mybot" 0 "C" = (none, [("root_post", 100)]) :=
  bare_mention_no_touch _ _ _ _ _ _ _ _ _ rfl (by decide) (by decide) (by decide)

end ZeroClaw
